import Mathlib

/-!
Shallow embedding of the TableIdentifier-v2.1 matching and feedback engine.

Python dictionaries are modelled as association lists (`List (String × α)`)
with insertion-order update semantics; floating-point scores and weights are
modelled as exact rationals.  Each definition mirrors one function of the
source: `adjust_weights`, `identify_tables`, `_calculate_weight_score`
(src/analysis/table_identifier.py), `get_matches`, `update_matches`
(src/analysis/name_match_manager.py), `match_pattern`, `_keyword_fallback`
(src/config/patterns.py) and the feedback store (src/feedback/feedback_manager.py).
-/

namespace TI

abbrev Table := String

/-- Association-list lookup: `dict[key]` returning `none` when absent. -/
def alookup {α : Type} : List (Table × α) → Table → Option α
  | [], _ => none
  | (k, v) :: rest, key => if k = key then some v else alookup rest key

/-- Python `dict.get(key, default)`. -/
def agetD {α : Type} (m : List (Table × α)) (k : Table) (d : α) : α :=
  (alookup m k).getD d

/-- Python `dict[key] = value`: update in place when the key exists, append
otherwise (insertion-order semantics). -/
def aset {α : Type} : List (Table × α) → Table → α → List (Table × α)
  | [], k, v => [(k, v)]
  | (k', v') :: rest, k, v =>
      if k' = k then (k', v) :: rest else (k', v') :: aset rest k v

/-- The keys of a dictionary, in insertion order. -/
def akeys {α : Type} (m : List (Table × α)) : List Table := m.map Prod.fst

/-- Python's `max(a, b)` on scores, written so that the kernel can reduce it. -/
def qmax (a b : ℚ) : ℚ := if a ≤ b then b else a

abbrev Weights := List (Table × ℚ)

/-- Model of `TableIdentifier._load_weights` cold-start branch: every catalog table
gets the default weight 1.0. -/
def init_weights (tables : List Table) : Weights :=
  tables.foldl (fun acc t => aset acc t 1) []

/-- First loop of `TableIdentifier.adjust_weights`: every listed selected
table gains 0.3 over its current weight (default 1.0). -/
def adjust_stage1 (w : Weights) (selected : List Table) : Weights :=
  selected.foldl (fun acc t => aset acc t (agetD acc t 1 + 3/10)) w

/-- Second loop of `adjust_weights`: `set(all_tables) - set(selected)` is
multiplied by 0.85 with a 0.5 floor. -/
def adjust_stage2 (w : Weights) (selected all_tables : List Table) : Weights :=
  ((all_tables.filter (fun t => ¬ t ∈ selected)).dedup).foldl
    (fun acc t => aset acc t (qmax (1/2) (agetD acc t 1 * (17/20)))) w

/-- Third loop of `adjust_weights`: tracked tables absent from `all_tables`
decay by 0.95 with a 0.5 floor. -/
def adjust_stage3 (w : Weights) (all_tables : List Table) : Weights :=
  ((akeys w).dedup.filter (fun t => ¬ t ∈ all_tables)).foldl
    (fun acc t => aset acc t (qmax (1/2) (agetD acc t 1 * (19/20)))) w

/-- Model of `TableIdentifier.adjust_weights`: +0.3 for selected tables, ×0.85 with a
0.5 floor for known-but-unselected tables, ×0.95 with a 0.5 floor for tracked
tables absent from `all_tables`. -/
def adjust_weights (w : Weights) (selected all_tables : List Table) : Weights :=
  adjust_stage3 (adjust_stage2 (adjust_stage1 w selected) selected all_tables) all_tables

/-- A sequence of `adjust_weights` calls applied in order. -/
def run_adjust (w : Weights) (calls : List (List Table × List Table)) : Weights :=
  calls.foldl (fun acc c => adjust_weights acc c.1 c.2) w

/-- Model of `TableIdentifier._calculate_weight_score`: mean of the looked-up weights
(default 1.0), capped at 1.0; 0.0 on the empty list. -/
def calculate_weight_score (w : Weights) (tables : List Table) : ℚ :=
  if tables = [] then 0
  else min ((tables.map (fun t => agetD w t 1)).sum / tables.length) 1

/-- The external NLP/similarity collaborator (spaCy): lemmatized non-stop
alphabetic terms of a text, filtered token texts, named-entity labels, and
pairwise similarity.  `identify`-side code receives it already applied to a
lowercased text. -/
structure Nlp where
  lemmas : String → List String
  tokens : String → List String
  ents : String → List String
  sim : String → String → ℚ

abbrev Synonyms := List (Table × List String)

abbrev MatchGraph := List (String × List (Table × ℚ))

/-- Model of `NameMatchManager.get_matches`: accumulate 0.9 per exact lemma hit, else
the memoized match-graph score; then max with any similarity above 0.8.
Returns `[]` when the spaCy model failed to load. -/
def get_matches (nlp : Option Nlp) (synonyms : Synonyms) (memo : MatchGraph)
    (query : String) : List (Table × ℚ) :=
  match nlp with
  | none => []
  | some n =>
    let query_terms := n.lemmas query.toLower
    let step1 := synonyms.foldl (fun acc ts =>
      ts.2.foldl (fun acc syn =>
        if syn ∈ query_terms then aset acc ts.1 (agetD acc ts.1 0 + 9/10)
        else
          match alookup memo syn with
          | some entries =>
              entries.foldl (fun acc2 e =>
                if e.1 = ts.1 then aset acc2 ts.1 (agetD acc2 ts.1 0 + e.2) else acc2) acc
          | none => acc) acc) []
    query_terms.foldl (fun acc term =>
      synonyms.foldl (fun acc ts =>
        ts.2.foldl (fun acc syn =>
          if 4/5 < n.sim term syn then aset acc ts.1 (qmax (agetD acc ts.1 0) (n.sim term syn))
          else acc) acc) acc) step1

/-- The mutable state of `NameMatchManager`: the synonym sets and the
match graph. -/
structure NameState where
  synonyms : Synonyms
  graph : MatchGraph
deriving DecidableEq

/-- Body of the inner `for term in terms` loop of
`NameMatchManager.update_matches`. -/
def upd_term (table : Table) (st : NameState) (term : String) : NameState :=
  let cur := agetD st.synonyms table []
  let syn1 := if term ∈ cur then st.synonyms else aset st.synonyms table (cur ++ [term])
  let m0 := if (alookup st.graph term).isSome then st.graph else aset st.graph term []
  let inner := agetD m0 term []
  ⟨syn1, aset m0 term (aset inner table (agetD inner table (9/10)))⟩

/-- Body of the outer `for table in tables` loop of
`NameMatchManager.update_matches`. -/
def upd_table (terms : List String) (st : NameState) (table : Table) : NameState :=
  let st0 : NameState :=
    if (alookup st.synonyms table).isSome then st
    else ⟨aset st.synonyms table [], st.graph⟩
  terms.foldl (upd_term table) st0

/-- Model of `NameMatchManager.update_matches`: append each new lemma to every
confirmed table's synonym set, and record a 0.9 match-graph entry when none
exists.  A missing spaCy model makes it a no-op. -/
def update_matches (nlp : Option Nlp) (st : NameState) (query : String)
    (tables : List Table) : NameState :=
  match nlp with
  | none => st
  | some n => tables.foldl (upd_table (n.lemmas query.toLower)) st

/-- Column metadata relevant to matching (`schema_dict['columns'][s][t][c]`). -/
structure ColInfo where
  type : String
deriving DecidableEq

/-- One foreign-key record of `schema_dict['foreign_keys'][s][t]`. -/
structure FKey where
  column : String
  referenced_table : String
  referenced_column : String
deriving DecidableEq

/-- The read-only catalog handed to `PatternManager` (`schema_dict`). -/
structure SchemaDict where
  tables : List (String × List String)
  columns : List (String × List (String × List (String × ColInfo)))
  foreign_keys : List (String × List (String × List FKey))

/-- Character-list prefix test. -/
def charsPre : List Char → List Char → Bool
  | [], _ => true
  | _ :: _, [] => false
  | a :: n, b :: h => a = b && charsPre n h

/-- Character-list infix test: the needle is a prefix of some suffix. -/
def charsInf (n : List Char) : List Char → Bool
  | [] => charsPre n []
  | b :: h => charsPre n (b :: h) || charsInf n h

/-- Python's `needle in hay` substring test. -/
def substr (needle hay : String) : Bool := charsInf needle.toList hay.toList

/-- Model of `col_name.lower().replace('_', ' ')`. -/
def underscore_norm (s : String) : String :=
  ⟨s.toLower.toList.map (fun c => if c = '_' then ' ' else c)⟩

/-- Python `set.add` on a set modelled as a duplicate-free list. -/
def setInsert (l : List Table) (t : Table) : List Table :=
  if t ∈ l then l else l ++ [t]

/-- Model of `' '.join(token["LOWER"] for token in pattern)`. -/
def sjoin (toks : List String) : String := String.intercalate " " toks

/-- Model of `PatternManager._keyword_fallback`: substring matching of table, schema
and underscore-normalized column names against the raw lowercased query. -/
def keyword_fallback (sd : SchemaDict) (query : String) : List Table :=
  let ql := query.toLower
  sd.tables.foldl (fun acc sc =>
    sc.2.foldl (fun acc tb =>
      let full := sc.1 ++ "." ++ tb
      let acc1 := if substr tb.toLower ql || substr sc.1.toLower ql then setInsert acc full else acc
      (agetD (agetD sd.columns sc.1 []) tb []).foldl (fun acc2 col =>
        if substr (underscore_norm col.1) ql then setInsert acc2 full else acc2) acc1) acc) []

/-- The literal pattern stage of `PatternManager.match_pattern`: a table
matches if some pattern's phrase is a substring of the lowercased query or
all its tokens occur among the query tokens. -/
def pattern_stage (qtokens : List String) (ql : String)
    (patterns : List (Table × List (List String))) : List Table :=
  patterns.foldl (fun acc tp =>
    if tp.2.any (fun pat => substr (sjoin pat) ql || pat.all (fun tok => tok ∈ qtokens))
    then setInsert acc tp.1 else acc) []

/-- The entity stage of `match_pattern`: DATE entities widen to tables with a
date/datetime/timestamp column, GPE entities to tables with a
city/state/country column. -/
def entity_stage (sd : SchemaDict) (labels : List String) (acc0 : List Table) : List Table :=
  labels.foldl (fun acc lab =>
    if lab = "DATE" ∨ lab = "GPE" then
      sd.columns.foldl (fun acc sc =>
        sc.2.foldl (fun acc tb =>
          tb.2.foldl (fun acc col =>
            let full := sc.1 ++ "." ++ tb.1
            let acc1 := if lab = "DATE" ∧ col.2.type.toLower ∈ ["date", "datetime", "timestamp"]
              then setInsert acc full else acc
            if lab = "GPE" ∧ (["city", "state", "country"].any (fun term => substr term col.1.toLower))
            then setInsert acc1 full else acc1) acc) acc) acc
    else acc) acc0

/-- The intent stage of `match_pattern`: every intent keyword that is a
substring of the query widens matches to tables having a column containing
that keyword. -/
def intent_stage (sd : SchemaDict) (ems : List (String × List String)) (ql : String)
    (acc0 : List Table) : List Table :=
  ems.foldl (fun acc ik =>
    ik.2.foldl (fun acc kw =>
      if substr kw ql then
        sd.columns.foldl (fun acc sc =>
          sc.2.foldl (fun acc tb =>
            tb.2.foldl (fun acc col =>
              if substr kw col.1.toLower then setInsert acc (sc.1 ++ "." ++ tb.1) else acc)
              acc) acc) acc
      else acc) acc) acc0

/-- The match set of `match_pattern` before the foreign-key widening. -/
def match_base (n : Nlp) (sd : SchemaDict) (patterns : List (Table × List (List String)))
    (ems : List (String × List String)) (query : String) : List Table :=
  let ql := query.toLower
  intent_stage sd ems ql (entity_stage sd (n.ents ql) (pattern_stage (n.tokens ql) ql patterns))

/-- The `fk_matches` set of `match_pattern`: referenced tables of every
already-matched table. -/
def fk_stage (sd : SchemaDict) (base : List Table) : List Table :=
  sd.foreign_keys.foldl (fun acc sc =>
    sc.2.foldl (fun acc tb =>
      if (sc.1 ++ "." ++ tb.1) ∈ base then
        tb.2.foldl (fun acc f => setInsert acc f.referenced_table) acc
      else acc) acc) []

/-- Model of `PatternManager.match_pattern`: the three matching stages followed by the
single-hop foreign-key widening; the pure keyword fallback when spaCy is
unavailable. -/
def match_pattern (nlp : Option Nlp) (sd : SchemaDict)
    (patterns : List (Table × List (List String))) (ems : List (String × List String))
    (query : String) : List Table :=
  match nlp with
  | none => keyword_fallback sd query
  | some n =>
    let base := match_base n sd patterns ems query
    base ++ (fk_stage sd base).filter (fun t => ¬ t ∈ base)

/-- The tables directly referenced by `t`'s foreign keys. -/
def direct_refs (sd : SchemaDict) (t : Table) : List Table :=
  sd.foreign_keys.foldl (fun acc sc =>
    sc.2.foldl (fun acc tb =>
      if sc.1 ++ "." ++ tb.1 = t then
        tb.2.foldl (fun acc f => setInsert acc f.referenced_table) acc
      else acc) acc) []

/-- The durable SQLite store of `FeedbackManager`: the `feedback` table has
no uniqueness constraint on `query` (rows kept in insertion order), while
`query_counts` has `query` as PRIMARY KEY. -/
structure FeedbackDb where
  feedback : List (String × List Table × ℚ)
  query_counts : List (String × Nat)
deriving DecidableEq

/-- A freshly initialized feedback store. -/
def empty_db : FeedbackDb := ⟨[], []⟩

/-- Model of `FeedbackManager.get_query_count`: first row for the query, else 0. -/
def get_query_count (db : FeedbackDb) (q : String) : Nat := agetD db.query_counts q 0

/-- Model of `FeedbackManager.store_feedback` on the durable store: `INSERT OR
REPLACE` into `feedback` has no uniqueness constraint to trip, so it always
inserts a row; the count upsert replaces through the primary key. -/
def store_feedback (db : FeedbackDb) (q : String) (tables : List Table) (weight : ℚ) :
    FeedbackDb :=
  { feedback := db.feedback ++ [(q, tables, weight)],
    query_counts := aset db.query_counts q (get_query_count db q + 1) }

/-- The export document (`{feedback: [...], query_counts: {...}}`). -/
structure ExportDoc where
  feedback : List (String × List Table × ℚ)
  query_counts : List (String × Nat)
deriving DecidableEq

/-- Model of `FeedbackManager.export_feedback`: serialize all rows and counts. -/
def export_feedback (db : FeedbackDb) : ExportDoc := ⟨db.feedback, db.query_counts⟩

/-- Model of `FeedbackManager.import_feedback` on the durable store: insert each
document row whose query and table list are truthy (non-empty), and upsert
every count. -/
def import_feedback (db : FeedbackDb) (doc : ExportDoc) : FeedbackDb :=
  { feedback := doc.feedback.foldl
      (fun acc r => if r.1 ≠ "" ∧ r.2.1 ≠ [] then acc ++ [r] else acc) db.feedback,
    query_counts := doc.query_counts.foldl (fun acc qc => aset acc qc.1 qc.2) db.query_counts }

/-- The scan of `FeedbackManager.get_similar_feedback` over a row list: the
single entry of highest similarity, provided it exceeds 0.8. -/
def best_match (n : Nlp) (q : String) (rows : List (String × List Table × ℚ)) :
    Option (String × List Table × ℚ) :=
  (rows.foldl (fun acc r =>
    let s := n.sim q.toLower r.1.toLower
    if acc.1 < s ∧ 4/5 < s then (s, some r) else acc) ((0 : ℚ), none)).2

/-- Model of `FeedbackManager.get_similar_feedback`: scan the cache, then the durable
rows (rewriting the cache to the single best entry on a durable hit); with no
spaCy model, return nothing and leave the cache alone. -/
def get_similar_feedback (nlp : Option Nlp) (cache : List (String × List Table × ℚ))
    (db : FeedbackDb) (q : String) :
    Option (String × List Table × ℚ) × List (String × List Table × ℚ) :=
  match nlp with
  | none => (none, cache)
  | some n =>
    match best_match n q cache with
    | some r => (some r, cache)
    | none =>
      match best_match n q db.feedback with
      | some r => (some r, [r])
      | none => (none, cache)

/-- Model of `matched_tables` of `TableIdentifier.identify_tables`: the union of the
pattern, name (score ≥ 0.8) and feedback signals, as a duplicate-free list. -/
def working_set (patternTables : List Table) (nameMatches : List (Table × ℚ))
    (feedbackTables : List Table) : List Table :=
  (patternTables ++ (nameMatches.filter (fun p => 4/5 ≤ p.2)).map Prod.fst
    ++ feedbackTables).dedup

/-- Model of `sorted(tables, key=lambda t: self.weights.get(t, 1.0), reverse=True)`:
a stable sort by descending table weight. -/
def sort_tables (w : Weights) (l : List Table) : List Table :=
  l.mergeSort (fun a b => decide (agetD w b 1 ≤ agetD w a 1))

/-- Model of `TableIdentifier.identify_tables`, parameterized by the outputs of its
three collaborators: confidence is the max of the three signal confidences
times the capped mean weight, and the result list is the working set sorted
by descending weight, truncated to 5. -/
def identify_tables (patternTables : List Table) (nameMatches : List (Table × ℚ))
    (feedbackTables : List Table) (w : Weights) : List Table × ℚ :=
  let pattern_confidence : ℚ := if patternTables = [] then 0 else 9/10
  let name_confidence : ℚ := (nameMatches.map Prod.snd).foldl qmax 0
  let feedback_confidence : ℚ := if feedbackTables = [] then 0 else 19/20
  let tables := working_set patternTables nameMatches feedbackTables
  if tables = [] then ([], 0)
  else
    ((sort_tables w tables).take 5,
      qmax pattern_confidence (qmax name_confidence feedback_confidence) *
        calculate_weight_score w tables)

/-- A stub NLP collaborator whose lemmatizer returns the two terms
`customer` and `order` for every text and whose similarity is always 0. -/
def cexNlp : Nlp :=
  ⟨fun _ => ["customer", "order"], fun _ => [], fun _ => [], fun _ _ => 0⟩

/-- Saturation of the name-match state at a (table, term) pair: the term is
already among the table's synonyms and the match graph already holds an entry
`term → table`. -/
def SatAt (st : NameState) (table : Table) (term : String) : Prop :=
  term ∈ agetD st.synonyms table [] ∧
    ∃ m, alookup st.graph term = some m ∧ (alookup m table).isSome

/-- The synonym dictionary already has an entry for the table. -/
def TableDone (st : NameState) (table : Table) : Prop :=
  (alookup st.synonyms table).isSome

section AlistLemmas

theorem alookup_aset_self {α : Type} (m : List (Table × α)) (k : Table) (v : α) :
    alookup (aset m k v) k = some v := by
  induction m with
  | nil => simp [aset, alookup]
  | cons p rest ih =>
      obtain ⟨k', v'⟩ := p
      by_cases h : k' = k
      · simp [aset, h, alookup]
      · simp [aset, h, alookup, ih]

theorem alookup_aset_of_ne {α : Type} (m : List (Table × α)) {k k' : Table} (v : α)
    (h : k ≠ k') : alookup (aset m k' v) k = alookup m k := by
  induction m with
  | nil => simp [aset, alookup, Ne.symm h]
  | cons p rest ih =>
      obtain ⟨k₀, v₀⟩ := p
      by_cases h0 : k₀ = k'
      · subst h0
        simp [aset, alookup, Ne.symm h]
      · simp [aset, h0, alookup, ih]

theorem alookup_mem {α : Type} {m : List (Table × α)} {k : Table} {v : α}
    (h : alookup m k = some v) : (k, v) ∈ m := by
  induction m with
  | nil => simp [alookup] at h
  | cons p rest ih =>
      obtain ⟨k₀, v₀⟩ := p
      by_cases h0 : k₀ = k
      · subst h0
        simp [alookup] at h
        simp [h]
      · simp [alookup, h0] at h
        simp [ih h]

theorem alookup_eq_none {α : Type} {m : List (Table × α)} {k : Table} :
    alookup m k = none ↔ k ∉ akeys m := by
  induction m with
  | nil => simp [alookup, akeys]
  | cons p rest ih =>
      obtain ⟨k₀, v₀⟩ := p
      by_cases h0 : k₀ = k
      · subst h0
        simp [alookup, akeys]
      · simp [alookup, h0, akeys, ih, Ne.symm h0]

theorem mem_akeys_of_alookup {α : Type} {m : List (Table × α)} {k : Table} {v : α}
    (h : alookup m k = some v) : k ∈ akeys m := by
  have := alookup_mem h
  exact List.mem_map.mpr ⟨(k, v), this, rfl⟩

theorem aset_eq_append {α : Type} {m : List (Table × α)} {k : Table} (v : α)
    (h : alookup m k = none) : aset m k v = m ++ [(k, v)] := by
  induction m with
  | nil => simp [aset]
  | cons p rest ih =>
      obtain ⟨k₀, v₀⟩ := p
      by_cases h0 : k₀ = k
      · subst h0
        simp [alookup] at h
      · simp [alookup, h0] at h
        simp [aset, h0, ih h]

theorem aset_self_of_alookup {α : Type} {m : List (Table × α)} {k : Table} {v : α}
    (h : alookup m k = some v) : aset m k v = m := by
  induction m with
  | nil => simp [alookup] at h
  | cons p rest ih =>
      obtain ⟨k₀, v₀⟩ := p
      by_cases h0 : k₀ = k
      · subst h0
        simp [alookup] at h
        simp [aset, h]
      · simp [alookup, h0] at h
        simp [aset, h0, ih h]

theorem aset_values {α : Type} {P : α → Prop} {m : List (Table × α)} {k : Table} {v : α}
    (hm : ∀ p ∈ m, P p.2) (hv : P v) : ∀ p ∈ aset m k v, P p.2 := by
  induction m with
  | nil => simpa [aset]
  | cons q rest ih =>
      obtain ⟨k₀, v₀⟩ := q
      by_cases h0 : k₀ = k
      · subst h0
        intro p hp
        simp [aset] at hp
        rcases hp with h | h
        · simp [h, hv]
        · exact hm p (by simp [h])
      · intro p hp
        simp [aset, h0] at hp
        rcases hp with h | h
        · exact hm p (by simp [h])
        · exact ih (fun q hq => hm q (by simp [hq])) p h

theorem agetD_values {α : Type} {P : α → Prop} {m : List (Table × α)} {k : Table} {d : α}
    (hm : ∀ p ∈ m, P p.2) (hd : P d) : P (agetD m k d) := by
  unfold agetD
  cases h : alookup m k with
  | none => simpa
  | some v => simpa using hm _ (alookup_mem h)

theorem foldl_preserve {α β : Type} {P : β → Prop} {f : β → α → β}
    (h : ∀ b a, P b → P (f b a)) : ∀ (l : List α) (b : β), P b → P (l.foldl f b) := by
  intro l
  induction l with
  | nil => intro b hb; simpa
  | cons a rest ih => intro b hb; exact ih _ (h b a hb)

theorem agetD_congr {α : Type} {m m' : List (Table × α)} {k : Table} (d : α)
    (h : alookup m k = alookup m' k) : agetD m k d = agetD m' k d := by
  unfold agetD
  rw [h]

end AlistLemmas

section QmaxLemmas

theorem le_qmax_left (a b : ℚ) : a ≤ qmax a b := by
  unfold qmax
  split
  · assumption
  · exact le_refl a

theorem qmax_eq_max (a b : ℚ) : qmax a b = max a b := by
  unfold qmax
  split
  · exact (max_eq_right ‹_›).symm
  · exact (max_eq_left (le_of_not_le ‹_›)).symm

end QmaxLemmas

section WeightLoops

theorem alookup_foldl_step_not_mem (g : ℚ → ℚ) {t : Table} :
    ∀ (l : List Table) (acc : Weights), t ∉ l →
      alookup (l.foldl (fun acc x => aset acc x (g (agetD acc x 1))) acc) t = alookup acc t := by
  intro l
  induction l with
  | nil => intro acc _; rfl
  | cons a rest ih =>
      intro acc ht
      rw [List.foldl_cons, ih _ (fun h => ht (List.mem_cons_of_mem _ h))]
      exact alookup_aset_of_ne _ _ (fun h => ht (h ▸ List.mem_cons_self a rest))

theorem alookup_foldl_step_mem (g : ℚ → ℚ) {t : Table} :
    ∀ (l : List Table) (acc : Weights), l.Nodup → t ∈ l →
      alookup (l.foldl (fun acc x => aset acc x (g (agetD acc x 1))) acc) t
        = some (g (agetD acc t 1)) := by
  intro l
  induction l with
  | nil => intro acc _ ht; simp at ht
  | cons a rest ih =>
      intro acc hnd ht
      have hna : a ∉ rest := (List.nodup_cons.mp hnd).1
      rw [List.foldl_cons]
      rcases List.mem_cons.mp ht with h | h
      · subst h
        rw [alookup_foldl_step_not_mem g rest _ hna]
        exact alookup_aset_self _ _ _
      · have hne : t ≠ a := fun he => hna (he ▸ h)
        rw [ih _ (List.nodup_cons.mp hnd).2 h,
          agetD_congr 1 (alookup_aset_of_ne _ _ hne)]

theorem stage1_mem {w : Weights} {s : List Table} {t : Table} (hnd : s.Nodup) (ht : t ∈ s) :
    alookup (adjust_stage1 w s) t = some (agetD w t 1 + 3/10) :=
  alookup_foldl_step_mem (fun v => v + 3/10) s w hnd ht

theorem stage1_not_mem {w : Weights} {s : List Table} {t : Table} (ht : t ∉ s) :
    alookup (adjust_stage1 w s) t = alookup w t :=
  alookup_foldl_step_not_mem (fun v => v + 3/10) s w ht

theorem stage2_known {w : Weights} {s k : List Table} {t : Table} (hts : t ∉ s) (htk : t ∈ k) :
    alookup (adjust_stage2 w s k) t = some (qmax (1/2) (agetD w t 1 * (17/20))) := by
  apply alookup_foldl_step_mem (fun v => qmax (1/2) (v * (17/20)))
  · exact (k.filter _).nodup_dedup
  · simp [List.mem_dedup, List.mem_filter, htk, hts]

theorem stage2_skip {w : Weights} {s k : List Table} {t : Table} (h : t ∈ s ∨ t ∉ k) :
    alookup (adjust_stage2 w s k) t = alookup w t := by
  apply alookup_foldl_step_not_mem (fun v => qmax (1/2) (v * (17/20)))
  intro hm
  simp only [List.mem_dedup, List.mem_filter, decide_not, Bool.not_eq_eq_eq_not,
    Bool.not_true, decide_eq_false_iff_not] at hm
  rcases h with h | h
  · exact hm.2 h
  · exact h hm.1

theorem stage3_known {w : Weights} {k : List Table} {t : Table} (htk : t ∈ k) :
    alookup (adjust_stage3 w k) t = alookup w t := by
  apply alookup_foldl_step_not_mem (fun v => qmax (1/2) (v * (19/20)))
  intro hm
  simp only [List.mem_filter, decide_not, Bool.not_eq_eq_eq_not, Bool.not_true,
    decide_eq_false_iff_not] at hm
  exact hm.2 htk

theorem stage3_unknown {w : Weights} {k : List Table} {t : Table} {v : ℚ}
    (hv : alookup w t = some v) (htk : t ∉ k) :
    alookup (adjust_stage3 w k) t = some (qmax (1/2) (v * (19/20))) := by
  have h := alookup_foldl_step_mem (fun x => qmax (1/2) (x * (19/20)))
    ((akeys w).dedup.filter (fun x => ¬ x ∈ k)) w
    (List.Nodup.filter _ (List.nodup_dedup (akeys w)))
    (by
      rw [List.mem_filter, List.mem_dedup]
      exact ⟨mem_akeys_of_alookup hv, by simpa using htk⟩)
  rw [adjust_stage3, h]
  unfold agetD
  rw [hv]
  rfl

theorem adjust_sel_known {w : Weights} {s k : List Table} {t : Table}
    (hnd : s.Nodup) (hts : t ∈ s) (htk : t ∈ k) :
    alookup (adjust_weights w s k) t = some (agetD w t 1 + 3/10) := by
  unfold adjust_weights
  rw [stage3_known htk, stage2_skip (Or.inl hts), stage1_mem hnd hts]

theorem adjust_unsel_known {w : Weights} {s k : List Table} {t : Table}
    (hts : t ∉ s) (htk : t ∈ k) :
    alookup (adjust_weights w s k) t = some (qmax (1/2) (agetD w t 1 * (17/20))) := by
  unfold adjust_weights
  rw [stage3_known htk, stage2_known hts htk, agetD_congr 1 (stage1_not_mem hts)]

theorem adjust_sel_unknown {w : Weights} {s k : List Table} {t : Table}
    (hnd : s.Nodup) (hts : t ∈ s) (htk : t ∉ k) :
    alookup (adjust_weights w s k) t = some (qmax (1/2) ((agetD w t 1 + 3/10) * (19/20))) := by
  unfold adjust_weights
  have h2 : alookup (adjust_stage2 (adjust_stage1 w s) s k) t = some (agetD w t 1 + 3/10) := by
    rw [stage2_skip (Or.inl hts), stage1_mem hnd hts]
  rw [stage3_unknown h2 htk]

theorem adjust_weights_values {w : Weights} (hw : ∀ p ∈ w, (1:ℚ)/2 ≤ p.2)
    (s k : List Table) : ∀ p ∈ adjust_weights w s k, (1:ℚ)/2 ≤ p.2 := by
  have h1 := foldl_preserve (P := fun m : Weights => ∀ p ∈ m, (1:ℚ)/2 ≤ p.2)
    (f := fun acc t => aset acc t (agetD acc t 1 + 3/10))
    (fun b a hb => aset_values hb (by
      have hg : (1:ℚ)/2 ≤ agetD b a 1 := agetD_values hb (by norm_num)
      linarith)) s w hw
  have h2 := foldl_preserve (P := fun m : Weights => ∀ p ∈ m, (1:ℚ)/2 ≤ p.2)
    (f := fun acc t => aset acc t (qmax (1/2) (agetD acc t 1 * (17/20))))
    (fun b a hb => aset_values hb (le_qmax_left _ _))
    ((k.filter (fun t => ¬ t ∈ s)).dedup) _ h1
  exact foldl_preserve (P := fun m : Weights => ∀ p ∈ m, (1:ℚ)/2 ≤ p.2)
    (f := fun acc t => aset acc t (qmax (1/2) (agetD acc t 1 * (19/20))))
    (fun b a hb => aset_values hb (le_qmax_left _ _)) _ _ h2

end WeightLoops



/-- C2: starting from the bind-time default of 1.0 per table, after any
sequence of `adjust_weights` calls with arbitrary arguments, every weight
tracked by the ledger is at least 0.5. -/
theorem weight_floor (tables : List Table) (calls : List (List Table × List Table))
    (t : Table) (v : ℚ)
    (h : alookup (run_adjust (init_weights tables) calls) t = some v) : 1/2 ≤ v := by
  have hinit : ∀ p ∈ init_weights tables, (1:ℚ)/2 ≤ p.2 :=
    foldl_preserve (P := fun m : Weights => ∀ p ∈ m, (1:ℚ)/2 ≤ p.2)
      (fun b a hb => aset_values hb (by norm_num)) tables [] (by simp)
  have hrun : ∀ p ∈ run_adjust (init_weights tables) calls, (1:ℚ)/2 ≤ p.2 :=
    foldl_preserve (P := fun m : Weights => ∀ p ∈ m, (1:ℚ)/2 ≤ p.2)
      (fun b a hb => adjust_weights_values hb a.1 a.2) calls _ hinit
  exact hrun _ (alookup_mem h)

/-- Witness for C2 at a concrete run: one table, one call that selects it
while reporting no known tables (weight becomes 1.235 ≥ 0.5). -/
theorem weight_floor_witness :
    alookup (run_adjust (init_weights ["a.b"]) [(["a.b"], [])]) "a.b" = some (247/200) ∧
      (1:ℚ)/2 ≤ 247/200 := by
  have hc : alookup (run_adjust (init_weights ["a.b"]) [(["a.b"], [])]) "a.b"
      = some (247/200) := by
    norm_num +decide [run_adjust, adjust_weights, adjust_stage1, adjust_stage2,
      adjust_stage3, init_weights, aset, agetD, alookup, akeys, qmax]
  exact ⟨hc, weight_floor ["a.b"] [(["a.b"], [])] "a.b" (247/200) hc⟩

/-- C4 as stated is false: with `selected = ["x"]` and `known = []`, the
selected table does not gain exactly 0.3: after the +0.3 step the decay loop
also multiplies it by 0.95, leaving 1.235 instead of 1.3. -/
theorem adjust_weights_plus_cex :
    alookup (adjust_weights [("x", 1)] ["x"] []) "x" = some (247/200) ∧
      (247 : ℚ)/200 ≠ 1 + 3/10 := by
  constructor
  · norm_num +decide [adjust_weights, adjust_stage1, adjust_stage2, adjust_stage3,
      aset, agetD, alookup, akeys, qmax]
  · norm_num

/-- C4 (amended): for a duplicate-free selected list, a selected table also
listed among the known tables gains exactly 0.3; a known-but-unselected table
is set to max(0.5, weight × 0.85); a selected table absent from the known
list additionally receives the ×0.95 decay after its +0.3; Scenario C holds
from defaults of 1.0. -/
theorem adjust_weights_spec (w : Weights) (s k : List Table) (t : Table) (hnd : s.Nodup) :
    (t ∈ s → t ∈ k → alookup (adjust_weights w s k) t = some (agetD w t 1 + 3/10)) ∧
    (t ∉ s → t ∈ k →
      alookup (adjust_weights w s k) t = some (qmax (1/2) (agetD w t 1 * (17/20)))) ∧
    (t ∈ s → t ∉ k →
      alookup (adjust_weights w s k) t = some (qmax (1/2) ((agetD w t 1 + 3/10) * (19/20)))) ∧
    alookup (adjust_weights (init_weights ["sales.customers", "sales.orders"])
      ["sales.customers"] ["sales.customers", "sales.orders"]) "sales.customers"
        = some (13/10) ∧
    alookup (adjust_weights (init_weights ["sales.customers", "sales.orders"])
      ["sales.customers"] ["sales.customers", "sales.orders"]) "sales.orders"
        = some (17/20) := by
  refine ⟨fun h1 h2 => adjust_sel_known hnd h1 h2,
    fun h1 h2 => adjust_unsel_known h1 h2,
    fun h1 h2 => adjust_sel_unknown hnd h1 h2, ?_, ?_⟩
  · norm_num +decide [adjust_weights, adjust_stage1, adjust_stage2, adjust_stage3,
      init_weights, aset, agetD, alookup, akeys, qmax]
  · norm_num +decide [adjust_weights, adjust_stage1, adjust_stage2, adjust_stage3,
      init_weights, aset, agetD, alookup, akeys, qmax]

/-- Witness for C4 (amended): each branch evaluated at concrete inputs
(selected/known combinations over weights `[("a", 1), ("b", 1)]`). -/
theorem adjust_weights_spec_witness :
    alookup (adjust_weights [("a", 1), ("b", 1)] ["a"] ["a", "b"]) "a"
        = some (agetD [("a", (1:ℚ)), ("b", 1)] "a" 1 + 3/10) ∧
    alookup (adjust_weights [("a", 1), ("b", 1)] ["a"] ["a", "b"]) "b"
        = some (qmax (1/2) (agetD [("a", (1:ℚ)), ("b", 1)] "b" 1 * (17/20))) ∧
    alookup (adjust_weights [("a", 1), ("b", 1)] ["c"] ["a", "b"]) "c"
        = some (qmax (1/2) ((agetD [("a", (1:ℚ)), ("b", 1)] "c" 1 + 3/10) * (19/20))) := by
  refine ⟨(adjust_weights_spec [("a", 1), ("b", 1)] ["a"] ["a", "b"] "a"
      (by decide)).1 (by decide) (by decide),
    (adjust_weights_spec [("a", 1), ("b", 1)] ["a"] ["a", "b"] "b"
      (by decide)).2.1 (by decide) (by decide),
    (adjust_weights_spec [("a", 1), ("b", 1)] ["c"] ["a", "b"] "c"
      (by decide)).2.2.1 (by decide) (by decide)⟩

/-- C10 as stated is false in one corner: `adjust_weights` on a previously
untracked selected table that is absent from the known list yields
(1.0 + 0.3) × 0.95 = 1.235, not 1.3, because the decay loop also touches it. -/
theorem untracked_selected_cex :
    alookup ([] : Weights) "y" = none ∧
    alookup (adjust_weights [] ["y"] []) "y" = some (247/200) ∧
    (247 : ℚ)/200 ≠ 13/10 := by
  refine ⟨rfl, ?_, by norm_num⟩
  norm_num +decide [adjust_weights, adjust_stage1, adjust_stage2, adjust_stage3,
    aset, agetD, alookup, akeys, qmax]

/-- C10 (amended): a table absent from the weight ledger defaults to 1.0 in
every lookup: its summand in `_calculate_weight_score` and its ranking key
are `agetD w t 1 = 1`, a working set of only untracked tables scores 1.0, and
`adjust_weights` on an untracked selected table listed among the known tables
sets its weight to 1.0 + 0.3 = 1.3 (absent from known it instead ends at
1.3 × 0.95 = 1.235). -/
theorem default_weight_one (w : Weights) (ts : List Table) (t : Table) (s k : List Table) :
    (alookup w t = none → agetD w t 1 = 1) ∧
    ((∀ x ∈ ts, alookup w x = none) → ts ≠ [] → calculate_weight_score w ts = 1) ∧
    (alookup w t = none → s.Nodup → t ∈ s → t ∈ k →
      alookup (adjust_weights w s k) t = some (13/10)) := by
  refine ⟨fun h => by unfold agetD; rw [h]; rfl, fun hall hne => ?_, fun h hnd h1 h2 => ?_⟩
  · unfold calculate_weight_score
    rw [if_neg hne]
    have hmap : ts.map (fun x => agetD w x 1) = ts.map (fun _ => (1:ℚ)) :=
      List.map_congr_left (fun x hx => by unfold agetD; rw [hall x hx]; rfl)
    rw [hmap, List.map_const', List.sum_replicate, nsmul_eq_mul, mul_one]
    have hlen : (ts.length : ℚ) ≠ 0 := by
      simpa using fun hzero => hne (List.length_eq_zero.mp hzero)
    rw [div_self hlen]
    simp
  · rw [adjust_sel_known hnd h1 h2]
    unfold agetD
    rw [h]
    norm_num

/-- Witness for C10 (amended): empty ledger, table `y` selected and known. -/
theorem default_weight_one_witness :
    agetD ([] : Weights) "y" 1 = 1 ∧
    calculate_weight_score [] ["z"] = 1 ∧
    alookup (adjust_weights [] ["y"] ["y"]) "y" = some (13/10) := by
  obtain ⟨h1, h2, h3⟩ := default_weight_one [] ["z"] "y" ["y"] ["y"]
  exact ⟨h1 rfl, h2 (by intro x hx; rfl) (by decide),
    h3 rfl (by decide) (by decide) (by decide)⟩

theorem le_qmax_right (a b : ℚ) : b ≤ qmax a b := by
  rw [qmax_eq_max]
  exact le_max_right a b

theorem cws_nonneg {w : Weights} (hw : ∀ p ∈ w, (0:ℚ) ≤ p.2) (l : List Table) :
    0 ≤ calculate_weight_score w l := by
  unfold calculate_weight_score
  split
  · exact le_refl 0
  · refine le_min (div_nonneg ?_ (by positivity)) (by norm_num)
    refine List.sum_nonneg ?_
    intro x hx
    obtain ⟨t, _, rfl⟩ := List.mem_map.mp hx
    exact agetD_values (P := fun q : ℚ => 0 ≤ q) hw (by norm_num)

theorem cws_le_one (w : Weights) (l : List Table) : calculate_weight_score w l ≤ 1 := by
  unfold calculate_weight_score
  split
  · norm_num
  · exact min_le_right _ _

/-- C1 (amended): the fused confidence is nonnegative whenever all ledger
weights are (true of every reachable ledger state), and it never exceeds the
strongest individual signal, `max(0.9, max(name_confidence, 0.95))`; the
bound 1.0 holds exactly when the accumulated name confidence stays ≤ 1.0 and
can otherwise be exceeded. -/
theorem identify_confidence_bounds (pt : List Table) (nm : List (Table × ℚ))
    (ft : List Table) (w : Weights) (hw : ∀ p ∈ w, (0:ℚ) ≤ p.2) :
    0 ≤ (identify_tables pt nm ft w).2 ∧
    (identify_tables pt nm ft w).2
      ≤ qmax (9/10) (qmax ((nm.map Prod.snd).foldl qmax 0) (19/20)) ∧
    ((nm.map Prod.snd).foldl qmax 0 ≤ 1 → (identify_tables pt nm ft w).2 ≤ 1) := by
  have hnc0 : (0:ℚ) ≤ (nm.map Prod.snd).foldl qmax 0 :=
    foldl_preserve (P := fun q : ℚ => 0 ≤ q)
      (fun b a hb => le_trans hb (le_qmax_left b a)) _ 0 le_rfl
  have hB : (0:ℚ) ≤ qmax (9/10) (qmax ((nm.map Prod.snd).foldl qmax 0) (19/20)) :=
    le_trans (by norm_num) (le_qmax_left _ _)
  have hid : (identify_tables pt nm ft w).2
      = if working_set pt nm ft = [] then 0
        else qmax (if pt = [] then 0 else 9/10)
          (qmax ((nm.map Prod.snd).foldl qmax 0) (if ft = [] then 0 else 19/20)) *
          calculate_weight_score w (working_set pt nm ft) := by
    unfold identify_tables
    by_cases h : working_set pt nm ft = []
    · simp [h]
    · simp [h]
  rw [hid]
  split
  · exact ⟨le_refl 0, hB, fun _ => by norm_num⟩
  · set nc := (nm.map Prod.snd).foldl qmax 0 with hncdef
    set pc : ℚ := if pt = [] then 0 else 9/10 with hpcdef
    set fc : ℚ := if ft = [] then 0 else 19/20 with hfcdef
    have hpc0 : 0 ≤ pc := by rw [hpcdef]; split <;> norm_num
    have hpc9 : pc ≤ 9/10 := by rw [hpcdef]; split <;> norm_num
    have hfc0 : 0 ≤ fc := by rw [hfcdef]; split <;> norm_num
    have hfc9 : fc ≤ 19/20 := by rw [hfcdef]; split <;> norm_num
    have hM0 : 0 ≤ qmax pc (qmax nc fc) := le_trans hpc0 (le_qmax_left _ _)
    have hMB : qmax pc (qmax nc fc) ≤ qmax (9/10) (qmax nc (19/20)) := by
      rw [qmax_eq_max, qmax_eq_max, qmax_eq_max, qmax_eq_max]
      exact max_le_max hpc9 (max_le_max (le_refl nc) hfc9)
    have hcw0 : 0 ≤ calculate_weight_score w (working_set pt nm ft) := cws_nonneg hw _
    have hcw1 : calculate_weight_score w (working_set pt nm ft) ≤ 1 := cws_le_one w _
    refine ⟨mul_nonneg hM0 hcw0, ?_, fun hnc1 => ?_⟩
    · exact le_trans (mul_le_of_le_one_right hM0 hcw1) hMB
    · have hM1 : qmax pc (qmax nc fc) ≤ 1 := by
        rw [qmax_eq_max, qmax_eq_max]
        exact max_le (by linarith) (max_le hnc1 (by linarith))
      calc qmax pc (qmax nc fc) * calculate_weight_score w (working_set pt nm ft)
          ≤ qmax pc (qmax nc fc) := mul_le_of_le_one_right hM0 hcw1
        _ ≤ 1 := hM1

/-- Witness for C1 (amended) at a concrete input: a single pattern table,
no name matches, no feedback, empty ledger. -/
theorem identify_confidence_bounds_witness :
    0 ≤ (identify_tables ["t"] [] [] []).2 ∧
    (identify_tables ["t"] [] [] []).2
      ≤ qmax (9/10) (qmax ((([] : List (Table × ℚ)).map Prod.snd).foldl qmax 0) (19/20)) ∧
    ((([] : List (Table × ℚ)).map Prod.snd).foldl qmax 0 ≤ 1 →
      (identify_tables ["t"] [] [] []).2 ≤ 1) :=
  identify_confidence_bounds ["t"] [] [] [] (by simp)

/-- C1 as stated is false: two synonyms of one table both hit the query
lemmas, the accumulated name score is 0.9 + 0.9 = 1.8, the weight score is
capped at 1.0 but the product 1.8 × 1.0 = 1.8 exceeds 1.0. -/
theorem identify_confidence_gt_one_cex :
    (identify_tables [] (get_matches (some cexNlp) [("t", ["customer", "order"])] [] "q")
      [] []).2 = 9/5 ∧
    ¬ (identify_tables [] (get_matches (some cexNlp) [("t", ["customer", "order"])] [] "q")
      [] []).2 ≤ 1 := by
  have h : get_matches (some cexNlp) [("t", ["customer", "order"])] [] "q"
      = [("t", 9/5)] := by
    norm_num +decide [get_matches, cexNlp, aset, agetD, alookup, qmax]
  rw [h]
  constructor
  · norm_num +decide [identify_tables, working_set, calculate_weight_score,
      agetD, alookup, qmax]
  · norm_num +decide [identify_tables, working_set, calculate_weight_score,
      agetD, alookup, qmax]

theorem sort_tables_perm (w : Weights) (l : List Table) : (sort_tables w l).Perm l :=
  List.mergeSort_perm l _

theorem sort_tables_sorted (w : Weights) (l : List Table) :
    (sort_tables w l).Pairwise (fun a b => agetD w b 1 ≤ agetD w a 1) := by
  have h : (l.mergeSort (fun a b : Table => decide (agetD w b 1 ≤ agetD w a 1))).Pairwise
      (fun a b : Table => decide (agetD w b 1 ≤ agetD w a 1) = true) :=
    List.sorted_mergeSort
      (fun a b c hab hbc => by
        simp only [decide_eq_true_eq] at *
        exact le_trans hbc hab)
      (fun a b => by simpa using le_total (agetD w b 1) (agetD w a 1)) l
  exact h.imp (fun hab => of_decide_eq_true hab)

/-- C5: for a non-empty working set, the returned table list is the working
set stably sorted by descending table weight and truncated to at most five
entries. -/
theorem identify_tables_ranking (pt : List Table) (nm : List (Table × ℚ))
    (ft : List Table) (w : Weights) (hne : working_set pt nm ft ≠ []) :
    (sort_tables w (working_set pt nm ft)).Perm (working_set pt nm ft) ∧
    (sort_tables w (working_set pt nm ft)).Pairwise
      (fun a b => agetD w b 1 ≤ agetD w a 1) ∧
    (identify_tables pt nm ft w).1 = (sort_tables w (working_set pt nm ft)).take 5 ∧
    (identify_tables pt nm ft w).1.length ≤ 5 ∧
    (∀ t ∈ (identify_tables pt nm ft w).1, t ∈ working_set pt nm ft) := by
  have hfst : (identify_tables pt nm ft w).1
      = (sort_tables w (working_set pt nm ft)).take 5 := by
    unfold identify_tables
    simp [hne]
  refine ⟨sort_tables_perm w _, sort_tables_sorted w _, hfst, ?_, ?_⟩
  · rw [hfst, List.length_take]
    exact min_le_left _ _
  · intro t ht
    rw [hfst] at ht
    exact (sort_tables_perm w _).mem_iff.mp (List.mem_of_mem_take ht)

/-- Witness for C5 at a concrete input: working set `["x", "y"]` with `y`
weighing 2.0 and `x` defaulting to 1.0. -/
theorem identify_tables_ranking_witness :
    (sort_tables [("y", (2:ℚ))] (working_set ["x", "y"] [] [])).Perm
      (working_set ["x", "y"] [] []) ∧
    (sort_tables [("y", (2:ℚ))] (working_set ["x", "y"] [] [])).Pairwise
      (fun a b => agetD [("y", (2:ℚ))] b 1 ≤ agetD [("y", (2:ℚ))] a 1) ∧
    (identify_tables ["x", "y"] [] [] [("y", (2:ℚ))]).1
      = (sort_tables [("y", (2:ℚ))] (working_set ["x", "y"] [] [])).take 5 ∧
    (identify_tables ["x", "y"] [] [] [("y", (2:ℚ))]).1.length ≤ 5 ∧
    (∀ t ∈ (identify_tables ["x", "y"] [] [] [("y", (2:ℚ))]).1,
      t ∈ working_set ["x", "y"] [] []) :=
  identify_tables_ranking ["x", "y"] [] [] [("y", 2)] (by decide)

theorem alookup_append_of_none {α : Type} {l1 : List (Table × α)} (l2 : List (Table × α))
    {k : Table} (h : alookup l1 k = none) : alookup (l1 ++ l2) k = alookup l2 k := by
  induction l1 with
  | nil => rfl
  | cons p rest ih =>
      obtain ⟨k0, v0⟩ := p
      by_cases h0 : k0 = k
      · subst h0
        simp [alookup] at h
      · simp [alookup, h0] at h ⊢
        exact ih h

theorem foldl_aset_append {α : Type} :
    ∀ (l acc : List (Table × α)), (akeys l).Nodup → (∀ p ∈ l, alookup acc p.1 = none) →
      l.foldl (fun acc qc => aset acc qc.1 qc.2) acc = acc ++ l := by
  intro l
  induction l with
  | nil => intro acc _ _; simp
  | cons p rest ih =>
      intro acc hnd hnone
      obtain ⟨k, v⟩ := p
      have hk : alookup acc k = none := hnone (k, v) (List.mem_cons_self _ _)
      have hnd' : (akeys rest).Nodup := (List.nodup_cons.mp (by simpa [akeys] using hnd)).2
      have hknotin : k ∉ akeys rest := (List.nodup_cons.mp (by simpa [akeys] using hnd)).1
      rw [List.foldl_cons]
      have hstep : aset acc k v = acc ++ [(k, v)] := aset_eq_append v hk
      rw [hstep, ih (acc ++ [(k, v)]) hnd' ?hrest]
      · simp
      case hrest =>
        intro q hq
        have hq1 : q.1 ≠ k := by
          intro he
          exact hknotin (he ▸ List.mem_map.mpr ⟨q, hq, rfl⟩)
        rw [alookup_append_of_none _ (hnone q (List.mem_cons_of_mem _ hq))]
        simp [alookup, hq1.symm]

/-- C3: evaluating the code at the failing input: two `store_feedback` calls
with the same query text leave the usage count at 2 as claimed, but the
`feedback` table, lacking a uniqueness constraint on `query`, ends with two
rows for that query instead of one. -/
theorem store_feedback_twice :
    get_query_count
      (store_feedback (store_feedback empty_db "q1" ["a.b"] 1) "q1" ["a.b"] 1) "q1" = 2 ∧
    ((store_feedback (store_feedback empty_db "q1" ["a.b"] 1) "q1" ["a.b"] 1).feedback.filter
      (fun r => r.1 = "q1")).length = 2 := by
  constructor
  · rfl
  · rfl

/-- C8 as stated is false: a feedback row with an empty confirmed-table list
survives export but is dropped by import's `if query and tables` guard, so
the round trip into an empty store loses it. -/
theorem import_drops_empty_tables :
    (import_feedback empty_db (export_feedback ⟨[("q", [], 1)], [("q", 1)]⟩)).feedback = [] ∧
    (FeedbackDb.mk [("q", [], 1)] [("q", 1)]).feedback ≠ [] := by
  constructor
  · rfl
  · simp

/-- C8 (amended): export followed by import into an empty store reproduces
all usage counts exactly, and reproduces exactly the feedback rows whose
query text and confirmed-table list are both non-empty; rows with an empty
query or an empty table list are dropped by import's validity guard. -/
theorem export_import_round_trip (db : FeedbackDb)
    (hnd : (akeys db.query_counts).Nodup) :
    (import_feedback empty_db (export_feedback db)).feedback
      = db.feedback.filter (fun r => decide (r.1 ≠ "" ∧ r.2.1 ≠ [])) ∧
    (import_feedback empty_db (export_feedback db)).query_counts = db.query_counts := by
  constructor
  · show (export_feedback db).feedback.foldl
        (fun acc r => if r.1 ≠ "" ∧ r.2.1 ≠ [] then acc ++ [r] else acc) empty_db.feedback
      = db.feedback.filter (fun r => decide (r.1 ≠ "" ∧ r.2.1 ≠ []))
    have hgen : ∀ (l acc : List (String × List Table × ℚ)),
        l.foldl (fun acc r => if r.1 ≠ "" ∧ r.2.1 ≠ [] then acc ++ [r] else acc) acc
          = acc ++ l.filter (fun r => decide (r.1 ≠ "" ∧ r.2.1 ≠ [])) := by
      intro l
      induction l with
      | nil => intro acc; simp
      | cons a rest ih =>
          intro acc
          by_cases h : a.1 ≠ "" ∧ a.2.1 ≠ []
          · rw [List.foldl_cons, if_pos h, ih, List.filter_cons_of_pos (by simpa using h)]
            simp
          · rw [List.foldl_cons, if_neg h, ih, List.filter_cons_of_neg (by simpa using h)]
    rw [hgen]
    rfl
  · show db.query_counts.foldl (fun acc qc => aset acc qc.1 qc.2) [] = db.query_counts
    rw [foldl_aset_append db.query_counts [] hnd (fun p _ => rfl)]
    rfl

/-- Witness for C8 (amended) at a concrete store with one valid row. -/
theorem export_import_round_trip_witness :
    (import_feedback empty_db
        (export_feedback ⟨[("q1", ["a.b"], 1)], [("q1", 2)]⟩)).feedback
      = [(("q1" : String), (["a.b"] : List Table), (1:ℚ))].filter
          (fun r => decide (r.1 ≠ "" ∧ r.2.1 ≠ [])) ∧
    (import_feedback empty_db
        (export_feedback ⟨[("q1", ["a.b"], 1)], [("q1", 2)]⟩)).query_counts
      = [("q1", 2)] :=
  export_import_round_trip ⟨[("q1", ["a.b"], 1)], [("q1", 2)]⟩ (by decide)

theorem mem_setInsert (l : List Table) (t x : Table) :
    x ∈ setInsert l t ↔ x ∈ l ∨ x = t := by
  unfold setInsert
  split
  · rename_i h
    constructor
    · exact Or.inl
    · rintro (hx | rfl)
      · exact hx
      · exact h
  · simp

theorem mem_foldl_add {α β : Type} (g : List β → α → List β) (P : α → β → Prop)
    (hg : ∀ a acc x, x ∈ g acc a ↔ x ∈ acc ∨ P a x) :
    ∀ (l : List α) (acc : List β) (x : β),
      x ∈ l.foldl g acc ↔ x ∈ acc ∨ ∃ a ∈ l, P a x := by
  intro l
  induction l with
  | nil => intro acc x; simp
  | cons a rest ih =>
      intro acc x
      rw [List.foldl_cons, ih, hg]
      constructor
      · rintro ((h | h) | ⟨b, hb, hP⟩)
        · exact Or.inl h
        · exact Or.inr ⟨a, List.mem_cons_self a rest, h⟩
        · exact Or.inr ⟨b, List.mem_cons_of_mem _ hb, hP⟩
      · rintro (h | ⟨b, hb, hP⟩)
        · exact Or.inl (Or.inl h)
        · rcases List.mem_cons.mp hb with rfl | hb
          · exact Or.inl (Or.inr hP)
          · exact Or.inr ⟨b, hb, hP⟩

theorem mem_refs_foldl (fks : List FKey) (acc : List Table) (x : Table) :
    x ∈ fks.foldl (fun acc f => setInsert acc f.referenced_table) acc
      ↔ x ∈ acc ∨ ∃ f ∈ fks, f.referenced_table = x :=
  mem_foldl_add (fun acc f => setInsert acc f.referenced_table)
    (fun f x => f.referenced_table = x)
    (fun f acc x => by rw [mem_setInsert]; exact or_congr_right eq_comm) fks acc x

theorem mem_fk_stage (sd : SchemaDict) (base : List Table) (x : Table) :
    x ∈ fk_stage sd base ↔ ∃ sc ∈ sd.foreign_keys, ∃ tb ∈ sc.2,
      (sc.1 ++ "." ++ tb.1) ∈ base ∧ ∃ f ∈ tb.2, f.referenced_table = x := by
  unfold fk_stage
  rw [mem_foldl_add _
    (fun (sc : String × List (String × List FKey)) x => ∃ tb ∈ sc.2,
      (sc.1 ++ "." ++ tb.1) ∈ base ∧ ∃ f ∈ tb.2, f.referenced_table = x) ?hout]
  · simp
  case hout =>
    intro sc acc x
    rw [mem_foldl_add _
      (fun (tb : String × List FKey) x =>
        (sc.1 ++ "." ++ tb.1) ∈ base ∧ ∃ f ∈ tb.2, f.referenced_table = x) ?hmid]
    case hmid =>
      intro tb acc2 x
      by_cases h : (sc.1 ++ "." ++ tb.1) ∈ base
      · rw [if_pos h, mem_refs_foldl]
        simp [h]
      · rw [if_neg h]
        simp [h]

theorem mem_direct_refs (sd : SchemaDict) (s x : Table) :
    x ∈ direct_refs sd s ↔ ∃ sc ∈ sd.foreign_keys, ∃ tb ∈ sc.2,
      sc.1 ++ "." ++ tb.1 = s ∧ ∃ f ∈ tb.2, f.referenced_table = x := by
  unfold direct_refs
  rw [mem_foldl_add _
    (fun (sc : String × List (String × List FKey)) x => ∃ tb ∈ sc.2,
      sc.1 ++ "." ++ tb.1 = s ∧ ∃ f ∈ tb.2, f.referenced_table = x) ?hout]
  · simp
  case hout =>
    intro sc acc x
    rw [mem_foldl_add _
      (fun (tb : String × List FKey) x =>
        sc.1 ++ "." ++ tb.1 = s ∧ ∃ f ∈ tb.2, f.referenced_table = x) ?hmid]
    case hmid =>
      intro tb acc2 x
      by_cases h : sc.1 ++ "." ++ tb.1 = s
      · rw [if_pos h, mem_refs_foldl]
        simp [h]
      · rw [if_neg h]
        simp [h]

/-- C6: the foreign-key widening of `match_pattern` is exactly single-hop: a
table is returned iff it is directly matched or directly referenced by some
directly matched table; nothing reachable only through two or more hops is
added. -/
theorem match_pattern_single_hop (n : Nlp) (sd : SchemaDict)
    (patterns : List (Table × List (List String))) (ems : List (String × List String))
    (query : String) (t : Table) :
    t ∈ match_pattern (some n) sd patterns ems query ↔
      t ∈ match_base n sd patterns ems query ∨
        ∃ s ∈ match_base n sd patterns ems query, t ∈ direct_refs sd s := by
  have hfk : ∀ x, x ∈ fk_stage sd (match_base n sd patterns ems query)
      ↔ ∃ s ∈ match_base n sd patterns ems query, x ∈ direct_refs sd s := by
    intro x
    rw [mem_fk_stage]
    constructor
    · rintro ⟨sc, hsc, tb, htb, hin, f, hf, rfl⟩
      exact ⟨sc.1 ++ "." ++ tb.1, hin,
        (mem_direct_refs sd _ _).mpr ⟨sc, hsc, tb, htb, rfl, f, hf, rfl⟩⟩
    · rintro ⟨s, hs, hds⟩
      obtain ⟨sc, hsc, tb, htb, heq, f, hf, rfl⟩ := (mem_direct_refs sd s _).mp hds
      exact ⟨sc, hsc, tb, htb, heq ▸ hs, f, hf, rfl⟩
  show t ∈ match_base n sd patterns ems query
      ++ (fk_stage sd (match_base n sd patterns ems query)).filter
          (fun x => ¬ x ∈ match_base n sd patterns ems query) ↔ _
  rw [List.mem_append, List.mem_filter]
  constructor
  · rintro (h | ⟨h, _⟩)
    · exact Or.inl h
    · exact Or.inr ((hfk t).mp h)
  · rintro (h | h)
    · exact Or.inl h
    · by_cases hb : t ∈ match_base n sd patterns ems query
      · exact Or.inl hb
      · exact Or.inr ⟨(hfk t).mpr h, by simpa using hb⟩

theorem mem_kf_cols (cols : List (String × ColInfo)) (full : Table) (ql : String)
    (acc : List Table) (x : Table) :
    x ∈ cols.foldl (fun acc2 col =>
        if substr (underscore_norm col.1) ql then setInsert acc2 full else acc2) acc
      ↔ x ∈ acc ∨ ∃ col ∈ cols, substr (underscore_norm col.1) ql ∧ x = full := by
  refine mem_foldl_add _
    (fun (col : String × ColInfo) x => substr (underscore_norm col.1) ql ∧ x = full)
    ?_ cols acc x
  intro col acc2 y
  by_cases h : substr (underscore_norm col.1) ql
  · rw [if_pos h, mem_setInsert]
    simp [h]
  · rw [if_neg h]
    simp [h]

theorem mem_keyword_fallback (sd : SchemaDict) (query : String) (x : Table) :
    x ∈ keyword_fallback sd query ↔ ∃ sc ∈ sd.tables, ∃ tb ∈ sc.2,
      x = sc.1 ++ "." ++ tb ∧
        (substr tb.toLower query.toLower ∨ substr sc.1.toLower query.toLower ∨
          ∃ col ∈ agetD (agetD sd.columns sc.1 []) tb [],
            substr (underscore_norm col.1) query.toLower) := by
  unfold keyword_fallback
  rw [mem_foldl_add _
    (fun (sc : String × List String) x => ∃ tb ∈ sc.2,
      x = sc.1 ++ "." ++ tb ∧
        (substr tb.toLower query.toLower ∨ substr sc.1.toLower query.toLower ∨
          ∃ col ∈ agetD (agetD sd.columns sc.1 []) tb [],
            substr (underscore_norm col.1) query.toLower)) ?hout]
  · simp
  case hout =>
    intro sc acc y
    rw [mem_foldl_add _
      (fun (tb : String) y => y = sc.1 ++ "." ++ tb ∧
        (substr tb.toLower query.toLower ∨ substr sc.1.toLower query.toLower ∨
          ∃ col ∈ agetD (agetD sd.columns sc.1 []) tb [],
            substr (underscore_norm col.1) query.toLower)) ?hmid]
    case hmid =>
      intro tb acc2 z
      rw [mem_kf_cols]
      by_cases h : (substr tb.toLower query.toLower || substr sc.1.toLower query.toLower) = true
      · rw [if_pos h, mem_setInsert]
        rcases Bool.or_eq_true_iff.mp h with h1 | h1 <;> simp [h1] <;> tauto
      · rw [if_neg h]
        rw [Bool.or_eq_true] at h
        simp only [not_or] at h
        simp only [h.1, h.2, false_or]
        constructor
        · rintro (hz | ⟨col, hcol, hc, rfl⟩)
          · exact Or.inl hz
          · exact Or.inr ⟨rfl, Or.inr (Or.inr ⟨col, hcol, hc⟩)⟩
        · rintro (hz | ⟨rfl, (hc | hc | ⟨col, hcol, hc⟩)⟩)
          · exact Or.inl hz
          · exact absurd hc (by decide)
          · exact absurd hc (by decide)
          · exact Or.inr ⟨col, hcol, hc, rfl⟩



/-- C9: with the spaCy model unavailable, `match_pattern` equals the pure
keyword fallback — substring matching of the lowercased query against table
names, schema names and underscore-normalized column names — and the synonym
lookup returns no matches while the feedback lookup returns nothing and
leaves the cache untouched; every entry point returns a value instead of
raising. -/
theorem nlp_unavailable_degrades (sd : SchemaDict)
    (patterns : List (Table × List (List String))) (ems : List (String × List String))
    (query : String) (syn : Synonyms) (memo : MatchGraph)
    (cache : List (String × List Table × ℚ)) (db : FeedbackDb) :
    match_pattern none sd patterns ems query = keyword_fallback sd query ∧
    (∀ t, t ∈ match_pattern none sd patterns ems query ↔ ∃ sc ∈ sd.tables, ∃ tb ∈ sc.2,
      t = sc.1 ++ "." ++ tb ∧
        (substr tb.toLower query.toLower ∨ substr sc.1.toLower query.toLower ∨
          ∃ col ∈ agetD (agetD sd.columns sc.1 []) tb [],
            substr (underscore_norm col.1) query.toLower)) ∧
    get_matches none syn memo query = [] ∧
    get_similar_feedback none cache db query = (none, cache) :=
  ⟨rfl, fun t => mem_keyword_fallback sd query t, rfl, rfl⟩

theorem upd_term_syn_mem {st : NameState} {table : Table} {term : String}
    {tb : Table} {x : String} (h : x ∈ agetD st.synonyms tb []) :
    x ∈ agetD (upd_term table st term).synonyms tb [] := by
  unfold upd_term
  by_cases hc : term ∈ agetD st.synonyms table []
  · simp only [hc, if_true]
    exact h
  · simp only [hc, if_false]
    by_cases htb : tb = table
    · subst htb
      unfold agetD
      rw [alookup_aset_self]
      simp only [Option.getD_some]
      exact List.mem_append_left _ h
    · unfold agetD
      rw [alookup_aset_of_ne _ _ (fun he => htb he)]
      exact h

theorem upd_term_syn_isSome {st : NameState} {table : Table} {term : String}
    {tb : Table} (h : (alookup st.synonyms tb).isSome) :
    (alookup (upd_term table st term).synonyms tb).isSome := by
  unfold upd_term
  by_cases hc : term ∈ agetD st.synonyms table []
  · simp only [hc, if_true]
    exact h
  · simp only [hc, if_false]
    by_cases htb : tb = table
    · subst htb
      rw [alookup_aset_self]
      rfl
    · rw [alookup_aset_of_ne _ _ (fun he => htb he)]
      exact h

theorem upd_term_graph_fact {st : NameState} {table : Table} {term : String}
    {tm : String} {tb : Table}
    (h : ∃ m, alookup st.graph tm = some m ∧ (alookup m tb).isSome) :
    ∃ m, alookup (upd_term table st term).graph tm = some m ∧ (alookup m tb).isSome := by
  obtain ⟨m, hm, hmb⟩ := h
  unfold upd_term
  by_cases htm : tm = term
  · subst htm
    have hm0 : (if (alookup st.graph tm).isSome then st.graph
        else aset st.graph tm []) = st.graph := by
      rw [if_pos (by rw [hm]; rfl)]
    rw [hm0]
    refine ⟨aset (agetD st.graph tm []) table
      (agetD (agetD st.graph tm []) table (9/10)), alookup_aset_self _ _ _, ?_⟩
    have hin : agetD st.graph tm [] = m := by
      unfold agetD
      rw [hm]
      rfl
    rw [hin]
    by_cases htb : tb = table
    · subst htb
      rw [alookup_aset_self]
      rfl
    · rw [alookup_aset_of_ne _ _ (fun he => htb he)]
      exact hmb
  · refine ⟨m, ?_, hmb⟩
    rw [alookup_aset_of_ne _ _ (fun he => htm he)]
    by_cases hs : (alookup st.graph term).isSome
    · rw [if_pos hs]
      exact hm
    · rw [if_neg hs, alookup_aset_of_ne _ _ (fun he => htm he)]
      exact hm

theorem upd_term_sat {st : NameState} (table : Table) (term : String) :
    SatAt (upd_term table st term) table term := by
  constructor
  · show term ∈ agetD (upd_term table st term).synonyms table []
    unfold upd_term
    by_cases hc : term ∈ agetD st.synonyms table []
    · simp only [hc, if_true]
    · simp only [hc, if_false]
      unfold agetD
      rw [alookup_aset_self]
      simp
  · show ∃ m, alookup (upd_term table st term).graph term = some m ∧
      (alookup m table).isSome
    unfold upd_term
    refine ⟨_, alookup_aset_self _ _ _, ?_⟩
    rw [alookup_aset_self]
    rfl

theorem upd_term_noop {st : NameState} {table : Table} {term : String}
    (h : SatAt st table term) : upd_term table st term = st := by
  obtain ⟨hsyn, m, hm, hmb⟩ := h
  obtain ⟨v, hv⟩ := Option.isSome_iff_exists.mp hmb
  have hin : agetD st.graph term [] = m := by
    unfold agetD
    rw [hm]
    rfl
  have hvv : agetD m table (9/10) = v := by
    unfold agetD
    rw [hv]
    rfl
  unfold upd_term
  dsimp only
  rw [if_pos hsyn, if_pos (by rw [hm]; rfl), hin, hvv, aset_self_of_alookup hv,
    aset_self_of_alookup hm]

theorem foldl_upd_term_sat_pres {table tb : Table} {tm : String} :
    ∀ (terms : List String) (st : NameState), SatAt st tb tm →
      SatAt (terms.foldl (upd_term table) st) tb tm :=
  fun terms st h => foldl_preserve (P := fun st => SatAt st tb tm)
    (fun _ _ hb => ⟨upd_term_syn_mem hb.1, upd_term_graph_fact hb.2⟩) terms st h

theorem foldl_upd_term_done_pres {table tb : Table} :
    ∀ (terms : List String) (st : NameState), TableDone st tb →
      TableDone (terms.foldl (upd_term table) st) tb :=
  fun terms st h => foldl_preserve (P := fun st => TableDone st tb)
    (fun _ _ hb => upd_term_syn_isSome hb) terms st h

theorem foldl_upd_term_sat {table : Table} :
    ∀ (terms : List String) (st : NameState) (q : String), q ∈ terms →
      SatAt (terms.foldl (upd_term table) st) table q := by
  intro terms
  induction terms with
  | nil => intro st q hq; simp at hq
  | cons a rest ih =>
      intro st q hq
      rw [List.foldl_cons]
      rcases List.mem_cons.mp hq with rfl | hq
      · exact foldl_upd_term_sat_pres rest _ (upd_term_sat table q)
      · exact ih _ q hq

theorem foldl_upd_term_noop {table : Table} :
    ∀ (terms : List String) (st : NameState), (∀ q ∈ terms, SatAt st table q) →
      terms.foldl (upd_term table) st = st := by
  intro terms
  induction terms with
  | nil => intro st _; rfl
  | cons a rest ih =>
      intro st h
      rw [List.foldl_cons, upd_term_noop (h a (List.mem_cons_self _ _))]
      exact ih st (fun q hq => h q (List.mem_cons_of_mem _ hq))

theorem upd_table_sat_pres {terms : List String} {st : NameState} {table tb : Table}
    {tm : String} (h : SatAt st tb tm) : SatAt (upd_table terms st table) tb tm := by
  unfold upd_table
  dsimp only
  apply foldl_upd_term_sat_pres
  by_cases hs : (alookup st.synonyms table).isSome
  · rw [if_pos hs]
    exact h
  · rw [if_neg hs]
    refine ⟨?_, h.2⟩
    by_cases htb : tb = table
    · exfalso
      subst htb
      have hnone : alookup st.synonyms tb = none := Option.not_isSome_iff_eq_none.mp hs
      have h1 := h.1
      unfold agetD at h1
      rw [hnone] at h1
      simp at h1
    · show tm ∈ agetD (aset st.synonyms table []) tb []
      unfold agetD
      rw [alookup_aset_of_ne _ _ htb]
      exact h.1

theorem upd_table_done_pres {terms : List String} {st : NameState} {table tb : Table}
    (h : TableDone st tb) : TableDone (upd_table terms st table) tb := by
  unfold upd_table
  dsimp only
  apply foldl_upd_term_done_pres
  by_cases hs : (alookup st.synonyms table).isSome
  · rw [if_pos hs]
    exact h
  · rw [if_neg hs]
    by_cases htb : tb = table
    · subst htb
      show (alookup (aset st.synonyms tb []) tb).isSome
      rw [alookup_aset_self]
      rfl
    · show (alookup (aset st.synonyms table []) tb).isSome
      rw [alookup_aset_of_ne _ _ htb]
      exact h

theorem upd_table_done (terms : List String) (st : NameState) (table : Table) :
    TableDone (upd_table terms st table) table ∧
      ∀ q ∈ terms, SatAt (upd_table terms st table) table q := by
  constructor
  · unfold upd_table
    dsimp only
    apply foldl_upd_term_done_pres
    by_cases hs : (alookup st.synonyms table).isSome
    · rw [if_pos hs]
      exact hs
    · rw [if_neg hs]
      show (alookup (aset st.synonyms table []) table).isSome
      rw [alookup_aset_self]
      rfl
  · intro q hq
    unfold upd_table
    dsimp only
    exact foldl_upd_term_sat _ _ q hq

theorem upd_table_noop {terms : List String} {st : NameState} {table : Table}
    (hd : TableDone st table) (hs : ∀ q ∈ terms, SatAt st table q) :
    upd_table terms st table = st := by
  unfold upd_table
  dsimp only
  have hd' : (alookup st.synonyms table).isSome = true := hd
  rw [if_pos hd']
  exact foldl_upd_term_noop terms st hs

theorem foldl_upd_table_facts {terms : List String} :
    ∀ (T : List Table) (st : NameState) (table : Table), table ∈ T →
      TableDone (T.foldl (upd_table terms) st) table ∧
        ∀ tm ∈ terms, SatAt (T.foldl (upd_table terms) st) table tm := by
  intro T
  induction T with
  | nil => intro st table htable; simp at htable
  | cons a rest ih =>
      intro st table htable
      rw [List.foldl_cons]
      rcases List.mem_cons.mp htable with rfl | htable
      · obtain ⟨hd, hsat⟩ := upd_table_done terms st table
        exact ⟨foldl_preserve (P := fun st => TableDone st table)
            (fun _ _ hb => upd_table_done_pres hb) rest _ hd,
          fun tm htm => foldl_preserve (P := fun st => SatAt st table tm)
            (fun _ _ hb => upd_table_sat_pres hb) rest _ (hsat tm htm)⟩
      · exact ih _ table htable

theorem foldl_upd_table_noop {terms : List String} :
    ∀ (T : List Table) (st : NameState),
      (∀ table ∈ T, TableDone st table ∧ ∀ tm ∈ terms, SatAt st table tm) →
      T.foldl (upd_table terms) st = st := by
  intro T
  induction T with
  | nil => intro st _; rfl
  | cons a rest ih =>
      intro st h
      rw [List.foldl_cons,
        upd_table_noop (h a (List.mem_cons_self _ _)).1 (h a (List.mem_cons_self _ _)).2]
      exact ih st (fun table ht => h table (List.mem_cons_of_mem _ ht))

/-- C7: `update_matches` is idempotent: applying it twice with the same query
and confirmed tables leaves exactly the synonym sets and match-graph state of
a single application (and it is a no-op without the spaCy model). -/
theorem update_matches_idem (nlp : Option Nlp) (st : NameState) (q : String)
    (T : List Table) :
    update_matches nlp (update_matches nlp st q T) q T = update_matches nlp st q T := by
  cases nlp with
  | none => rfl
  | some n =>
      show T.foldl (upd_table (n.lemmas q.toLower))
          (T.foldl (upd_table (n.lemmas q.toLower)) st)
        = T.foldl (upd_table (n.lemmas q.toLower)) st
      exact foldl_upd_table_noop T _ (fun table ht => foldl_upd_table_facts T st table ht)

end TI
